import Mathlib

/-!
Verification of the aptutil mirror and cacher components.

The development shallowly embeds `src/cacher/storage.go` and
`src/mirror/mirror.go`.  The `apt` collaborator package (FileInfo and
digest utilities) and the mirror `Storage` are not part of the sources
under verification; they are modelled from the specification where
needed.  File system and network effects are modelled by explicit
environment records supplying the outcome of each fallible call, and
operations additionally return a trace of the external actions they
performed, in program order.
-/

namespace Aptutil

/-- Modelled from the spec: the three digest algorithms (MD5, SHA1,
SHA256) of the `apt` collaborator, abstracted as arbitrary functions
from byte sequences to digest values.  All theorems hold for every
choice of hash functions. -/
structure HashFns where
  md5 : List Nat → Nat
  sha1 : List Nat → Nat
  sha256 : List Nat → Nat

/-- A trivial concrete hash model, used to evaluate the development on
concrete inputs. -/
def zeroHash : HashFns :=
  ⟨fun _ => 0, fun _ => 0, fun _ => 0⟩

/-- Modelled from the spec: `apt.FileInfo` — a path, a size and three
optional digests. -/
structure FileInfo where
  path : String
  size : Nat
  md5 : Option Nat
  sha1 : Option Nat
  sha256 : Option Nat
deriving Repr, DecidableEq

/-- Modelled from the spec: `FileInfo.HasChecksum` is true once any
digest is set. -/
def FileInfo.hasChecksum (fi : FileInfo) : Bool :=
  fi.md5.isSome || fi.sha1.isSome || fi.sha256.isSome

/-- One digest slot matches if it is byte-equal whenever present in
both sides. -/
def digestMatch : Option Nat → Option Nat → Bool
  | some a, some b => a == b
  | _, _ => true

/-- Modelled from the spec: `FileInfo.Same` — equal sizes and, for each
digest present in both sides, equal digest. -/
def FileInfo.same (a b : FileInfo) : Bool :=
  a.size == b.size && digestMatch a.md5 b.md5 && digestMatch a.sha1 b.sha1 &&
    digestMatch a.sha256 b.sha256

/-- Modelled from the spec: `apt.MakeFileInfoNoChecksum`. -/
def makeFileInfoNoChecksum (p : String) (size : Nat) : FileInfo :=
  ⟨p, size, none, none, none⟩

/-- Modelled from the spec: `FileInfo.CalcChecksums` fills all digests
of a no-checksum FileInfo from the file bytes. -/
def FileInfo.calcChecksums (H : HashFns) (fi : FileInfo) (data : List Nat) : FileInfo :=
  { fi with md5 := some (H.md5 data), sha1 := some (H.sha1 data),
            sha256 := some (H.sha256 data) }

/-- Modelled from the spec: `apt.CopyWithFileInfo` streams the source
bytes and returns a FileInfo populated with the observed size and all
three digests. -/
def copyWithFileInfo (H : HashFns) (p : String) (data : List Nat) : FileInfo :=
  ⟨p, data.length, some (H.md5 data), some (H.sha1 data), some (H.sha256 data)⟩

/-- Splitting a character list on `/`, with the semantics of Go
`strings.Split` (and of `String.splitOn` for a one-character
separator): the empty input yields one empty element. -/
def splitSlashAux : List Char → List Char → List (List Char)
  | acc, [] => [acc.reverse]
  | acc, c :: cs =>
    if c = '/' then acc.reverse :: splitSlashAux [] cs
    else splitSlashAux (c :: acc) cs

/-- Path elements of a slash-separated path. -/
def splitSlash (l : List Char) : List (List Char) :=
  splitSlashAux [] l

/-- Joining path elements with `/`. -/
def joinSlash : List String → String
  | [] => ""
  | [x] => x
  | x :: rest => x ++ "/" ++ joinSlash rest

/-- Suffix test on the character lists of two strings. -/
def strEndsWith (s t : String) : Bool :=
  s.data.reverse.take t.data.length == t.data.reverse

/-- Removal of the last `n` characters of a string. -/
def strDropRight (s : String) (n : Nat) : String :=
  String.mk (s.data.take (s.data.length - n))

/-- Directory part of a slash-separated path, including the trailing
slash; empty for a bare file name. -/
def dirPart (p : String) : String :=
  match (splitSlash p.data).dropLast with
  | [] => ""
  | parts => joinSlash (parts.map String.mk) ++ "/"

/-- Hexadecimal rendering of a digest value. -/
def hexStr (n : Nat) : String :=
  String.mk (Nat.toDigits 16 n)

/-- Modelled from the spec: canonical by-hash path
`<dir>/by-hash/<ALGO>/<hexdigest>` derived from the directory part of
the path. -/
def byHashPath (p : String) (algo : String) (digest : Option Nat) : String :=
  dirPart p ++ "by-hash/" ++ algo ++ "/" ++ hexStr (digest.getD 0)

/-- Modelled from the spec: `FileInfo.SHA256Path`. -/
def FileInfo.sha256Path (fi : FileInfo) : String :=
  byHashPath fi.path "SHA256" fi.sha256

/-- Modelled from the spec: `FileInfo.SHA1Path`. -/
def FileInfo.sha1Path (fi : FileInfo) : String :=
  byHashPath fi.path "SHA1" fi.sha1

/-- Modelled from the spec: `FileInfo.MD5SumPath`. -/
def FileInfo.md5SumPath (fi : FileInfo) : String :=
  byHashPath fi.path "MD5Sum" fi.md5

/-! ### Go `path/filepath` on a Unix system -/

/-- Element processing loop of Go `filepath.Clean`: the stack holds the
already emitted elements in reverse order. -/
def cleanStack (rooted : Bool) : List String → List String → List String
  | stack, [] => stack.reverse
  | stack, e :: rest =>
    if e = "" ∨ e = "." then cleanStack rooted stack rest
    else if e = ".." then
      match stack with
      | top :: stk =>
        if top = ".." then cleanStack rooted (".." :: top :: stk) rest
        else cleanStack rooted stk rest
      | [] =>
        if rooted then cleanStack rooted [] rest
        else cleanStack rooted [".."] rest
    else cleanStack rooted (e :: stack) rest

/-- Go `filepath.IsAbs` on a Unix system: the path begins with a
slash. -/
def goIsAbs (p : String) : Bool :=
  match p.data with
  | c :: _ => c == '/'
  | [] => false

/-- Go `filepath.Clean` for slash-separated paths: empty path becomes
`.`, `.` and empty elements are dropped, `..` elements unwind, a rooted
path keeps its leading slash. -/
def goClean (p : String) : String :=
  if p = "" then "."
  else
    let rooted := goIsAbs p
    let elems := cleanStack rooted [] ((splitSlash p.data).map String.mk)
    let joined := joinSlash elems
    if rooted then "/" ++ joined
    else if joined = "" then "." else joined

namespace Cacher

/-- `entry` of `src/cacher/storage.go`: a FileInfo plus the logical
access time.  The `index` field of the source is bookkeeping of
`container/heap` and has no observable content in the priority-queue
model of the heap. -/
structure Entry where
  fi : FileInfo
  atime : Nat
deriving Repr, DecidableEq

/-- `entry.FilePath` of the source: the backing file name. -/
def Entry.filePath (e : Entry) : String :=
  e.fi.path ++ ".cache"

/-- `Storage` of `src/cacher/storage.go`.  In the source the `cache`
map and the `lru` heap slice hold pointers to the same entries and are
kept in sync by every operation; the model represents that shared
collection as one list.  `container/heap` (Go standard library) is
modelled by its contract: pop removes a minimum-priority element, push
adds one, and the sift operations only reorder the backing array. -/
structure Storage where
  dir : String
  capacity : Nat
  used : Nat
  entries : List Entry
  lclock : Nat
deriving Repr, DecidableEq

/-- `NewStorage` of the source: empty cache, nothing on disk touched. -/
def newStorage (dir : String) (capacity : Nat) : Storage :=
  ⟨dir, capacity, 0, [], 0⟩

/-- Lookup of `cm.cache[p]`: the entry whose FileInfo path is `p`. -/
def findEntry (s : Storage) (p : String) : Option Entry :=
  s.entries.find? (fun e => e.fi.path == p)

/-- `heap.Pop` on the lru heap: removes and returns an entry of minimal
`atime` (the `Less` method of the source compares `atime`). -/
def popMinAux : List Entry → Option (Entry × List Entry)
  | [] => none
  | e :: rest =>
    match popMinAux rest with
    | none => some (e, [])
    | some (m, rest2) =>
      if e.atime ≤ m.atime then some (e, rest) else some (m, e :: rest2)

/-- `delete(cm.cache, p)` combined with `heap.Remove` of the same
entry: removes the (first) entry with path `p`. -/
def erasePath (p : String) : List Entry → List Entry
  | [] => []
  | e :: rest => if e.fi.path == p then rest else e :: erasePath p rest

/-- In-place mutation of a shared entry (the source mutates through the
pointer held by both `cache` and `lru`). -/
def updatePath (p : String) (f : Entry → Entry) : List Entry → List Entry
  | [] => []
  | e :: rest => if e.fi.path == p then f e :: rest else e :: updatePath p f rest

theorem popMinAux_eq_none : ∀ l, popMinAux l = none → l = [] := by
  intro l h
  cases l with
  | nil => rfl
  | cons a rest =>
    simp only [popMinAux] at h
    cases hm : popMinAux rest with
    | none => rw [hm] at h; simp at h
    | some pr =>
      obtain ⟨m, r2⟩ := pr
      rw [hm] at h
      by_cases hc : a.atime ≤ m.atime <;> simp [hc] at h

theorem popMinAux_length : ∀ l e r, popMinAux l = some (e, r) → r.length + 1 = l.length := by
  intro l
  induction l with
  | nil => intro e r h; simp [popMinAux] at h
  | cons a rest ih =>
    intro e r h
    simp only [popMinAux] at h
    cases hm : popMinAux rest with
    | none =>
      rw [hm] at h
      have hr : rest = [] := popMinAux_eq_none rest hm
      simp at h
      obtain ⟨he, hrr⟩ := h
      simp [← hrr, hr]
    | some pr =>
      obtain ⟨m, rest2⟩ := pr
      rw [hm] at h
      have hl := ih m rest2 hm
      by_cases hc : a.atime ≤ m.atime
      · simp [hc] at h
        obtain ⟨he, hr⟩ := h
        simp [← hr]
      · simp [hc] at h
        obtain ⟨he, hr⟩ := h
        simp [← hr, ← hl]

/-- `maint` of the source: while over capacity (and capacity positive),
pop the minimum-atime entry, delete it from the cache and subtract its
size.  The file removal is logged and ignored and has no in-memory
effect. -/
def Storage.maint (s : Storage) : Storage :=
  if s.capacity > 0 ∧ s.used > s.capacity then
    match h : popMinAux s.entries with
    | none => s
    | some (e, rest) => Storage.maint { s with entries := rest, used := s.used - e.fi.size }
  else s
termination_by s.entries.length
decreasing_by
  have := popMinAux_length _ _ _ h
  show rest.length < s.entries.length
  omega

/-- Errors of the cacher storage operations. -/
inductive CErr
  | badPath
  | invalidData
  | ioErr (c : Nat)
deriving Repr, DecidableEq

/-- Trace of external actions performed by `Insert`, in program
order. -/
inductive Trc
  | createTemp
  | removeTemp
  | lock
  | unlock
  | removeDestFile
  | renameTemp
deriving Repr, DecidableEq

/-- Outcome of an `os.Remove` call: success, a not-exist error (which
the source tolerates with a warning), or a hard failure. -/
inductive RmOut
  | ok
  | notExist
  | fail (c : Nat)
deriving Repr, DecidableEq

/-- Environment for one `Insert` call: the outcome of each fallible
external call, in the order the source makes them. -/
structure InsertEnv where
  tempFile : Except Nat Unit
  copy : Except Nat (List Nat)
  sync : Except Nat Unit
  stat : Except Nat Unit
  removeDest : RmOut
  rename : Except Nat Unit

/-- The `ErrInvalidData` test of `Insert`: a caller-supplied FileInfo
with checksums that is not `Same` as the streamed one. -/
def invalidCheck : Option FileInfo → FileInfo → Bool
  | some f, fi2 => f.hasChecksum && !(f.same fi2)
  | none, _ => false

/-- The mutex-held tail of `Insert`: removal of an existing entry for
the path, rename of the temp file into place, then enrollment of the
new entry and `maint`. -/
def insertLocked (env : InsertEnv) (fi2 : FileInfo) (p : String) (s : Storage) :
    Except CErr FileInfo × Storage × List Trc :=
  let finish : Storage → List Trc → Except CErr FileInfo × Storage × List Trc :=
    fun s1 tr =>
      match env.rename with
      | .error c => (.error (.ioErr c), s1, tr)
      | .ok _ =>
        let e : Entry := ⟨fi2, s1.lclock⟩
        let s2 : Storage :=
          { s1 with entries := s1.entries ++ [e],
                    used := s1.used + fi2.size, lclock := s1.lclock + 1 }
        (.ok fi2, s2.maint, tr ++ [.renameTemp])
  match findEntry s p with
  | some ex =>
    match env.removeDest with
    | .fail c => (.error (.ioErr c), s, [.removeDestFile])
    | _ =>
      finish { s with entries := erasePath p s.entries, used := s.used - ex.fi.size }
        [.removeDestFile]
  | none => finish s []

/-- `Insert` of `src/cacher/storage.go`, in source order: path checks,
temp file creation, streaming copy, fsync, the `ErrInvalidData` check,
directory stat/mkdir collapsed into one outcome, then the mutex-held
tail.  The deferred close-and-remove of the temp file runs on every
path after its creation, after the deferred unlock. -/
def Storage.insert (H : HashFns) (env : InsertEnv) (p : String) (fi : Option FileInfo)
    (s : Storage) : Except CErr FileInfo × Storage × List Trc :=
  if p ≠ goClean p ∨ goIsAbs p ∨ p = "." then (.error .badPath, s, [])
  else
    match env.tempFile with
    | .error c => (.error (.ioErr c), s, [])
    | .ok _ =>
      match env.copy with
      | .error c => (.error (.ioErr c), s, [.createTemp, .removeTemp])
      | .ok data =>
        let fi2 := copyWithFileInfo H p data
        match env.sync with
        | .error c => (.error (.ioErr c), s, [.createTemp, .removeTemp])
        | .ok _ =>
          if invalidCheck fi fi2 then (.error .invalidData, s, [.createTemp, .removeTemp])
          else
            match env.stat with
            | .error c => (.error (.ioErr c), s, [.createTemp, .removeTemp])
            | .ok _ =>
              let r := insertLocked env fi2 p s
              (r.1, r.2.1, [.createTemp, .lock] ++ r.2.2 ++ [.unlock, .removeTemp])

/-- The in-memory removal `Insert` performs when an entry for the path
already exists (`heap.Remove` plus map delete plus the `used`
adjustment); identity when the path is absent. -/
def insertBase (s : Storage) (p : String) : Storage :=
  match findEntry s p with
  | some ex => { s with entries := erasePath p s.entries, used := s.used - ex.fi.size }
  | none => s

/-- Enrollment of a new entry at the current logical clock: the common
tail of `Insert` (heap push, map insert, `used` and `lclock` bump). -/
def enroll (t : Storage) (fi2 : FileInfo) : Storage :=
  { t with entries := t.entries ++ [⟨fi2, t.lclock⟩],
           used := t.used + fi2.size, lclock := t.lclock + 1 }

/-- The two in-place mutations a successful `Lookup` performs on the
shared entry for `p`: the checksum memoization and then the atime
bump to the current clock. -/
def bumpEntries (s : Storage) (p : String) (newFi : FileInfo) : List Entry :=
  updatePath p (fun e0 => { e0 with atime := s.lclock })
    (updatePath p (fun e0 => { e0 with fi := newFi }) s.entries)

/-- Environment for one `Lookup` call: the outcome of the deferred
checksum read (`readData`) and of the final `os.Open`. -/
structure LookupEnv where
  readData : Except Nat (List Nat)
  openFile : Except Nat Unit

/-- Errors of `Lookup`: the `ErrNotFound` sentinel or a propagated
I/O error. -/
inductive LookupErr
  | notFound
  | ioErr (c : Nat)
deriving Repr, DecidableEq

/-- `Lookup` of `src/cacher/storage.go`: map lookup, delayed checksum
calculation (`calcChecksum`, which mutates the shared FileInfo in
place and propagates a read error), the `Same` comparison, then the
atime bump, `heap.Fix` (pure reordering) and the final open. -/
def Storage.lookup (H : HashFns) (env : LookupEnv) (fi : FileInfo) (s : Storage) :
    Except LookupErr Unit × Storage :=
  match findEntry s fi.path with
  | none => (.error .notFound, s)
  | some e =>
    let calcRes : Except Nat FileInfo :=
      if e.fi.hasChecksum then .ok e.fi
      else
        match env.readData with
        | .error c => .error c
        | .ok data => .ok (e.fi.calcChecksums H data)
    match calcRes with
    | .error c => (.error (.ioErr c), s)
    | .ok newFi =>
      let s1 : Storage :=
        { s with entries := updatePath fi.path (fun e0 => { e0 with fi := newFi }) s.entries }
      if ¬ fi.same newFi then (.error .notFound, s1)
      else
        let s2 : Storage :=
          { s1 with
            entries := updatePath fi.path (fun e0 => { e0 with atime := s1.lclock }) s1.entries,
            lclock := s1.lclock + 1 }
        match env.openFile with
        | .error c => (.error (.ioErr c), s2)
        | .ok _ => (.ok (), s2)

/-- `Delete` of the source: idempotent removal; a hard file-removal
failure aborts before the in-memory state is touched. -/
def Storage.delete (env : RmOut) (p : String) (s : Storage) : Except Nat Unit × Storage :=
  match findEntry s p with
  | none => (.ok (), s)
  | some e =>
    match env with
    | .fail c => (.error c, s)
    | _ => (.ok (), { s with entries := erasePath p s.entries, used := s.used - e.fi.size })

/-- `ListAll` of the source. -/
def Storage.listAll (s : Storage) : List FileInfo :=
  s.entries.map (fun e => e.fi)

/-- One item passed to the walk callback of `Load`: the walk error (if
any), whether the file is regular, its path relative to the cache
directory, and its size. -/
structure WalkItem where
  err : Option Nat
  regular : Bool
  subpath : String
  size : Nat

/-- Go `filepath.Ext(p) == ".cache"`: since `cache` contains neither a
dot nor a separator, the extension is `.cache` exactly when the path
ends with it. -/
def hasCacheExt (p : String) : Bool :=
  strEndsWith p ".cache"

/-- The walk callback loop of `Load`: errors propagate (leaving the
entries enrolled so far in place, as the source mutates the receiver
directly); non-regular files, files without the `.cache` suffix and
paths already present in the cache are skipped; every other file is
enrolled with a size-only FileInfo and `atime = lclock`, incrementing
`lclock`. -/
def loadCore : List WalkItem → Storage → Option Nat × Storage
  | [], s => (none, s)
  | it :: rest, s =>
    match it.err with
    | some c => (some c, s)
    | none =>
      if ¬ it.regular then loadCore rest s
      else if ¬ hasCacheExt it.subpath then loadCore rest s
      else
        let key := strDropRight it.subpath 6
        if (findEntry s key).isSome then loadCore rest s
        else
          let e : Entry := ⟨makeFileInfoNoChecksum key it.size, s.lclock⟩
          loadCore rest
            { s with entries := s.entries ++ [e],
                     used := s.used + it.size, lclock := s.lclock + 1 }

/-- `Load` of the source: walk the directory, then — only when the walk
succeeded — `heap.Init` (pure reordering of the backing array) and
`maint`. -/
def Storage.load (items : List WalkItem) (s : Storage) : Except Nat Unit × Storage :=
  match loadCore items s with
  | (some c, s1) => (.error c, s1)
  | (none, s1) => (.ok (), s1.maint)

/-- Well-formedness of a cacher state: `used` is the sum of the entry
sizes, paths are distinct (`cache` is a map), atimes are distinct and
below `lclock`.  These hold for the initial state and are preserved by
every public operation. -/
def WF (s : Storage) : Prop :=
  s.used = (s.entries.map (fun e => e.fi.size)).sum ∧
  s.entries.Pairwise (fun a b => a.fi.path ≠ b.fi.path) ∧
  s.entries.Pairwise (fun a b => a.atime ≠ b.atime) ∧
  ∀ e ∈ s.entries, e.atime < s.lclock

instance (s : Storage) : Decidable (WF s) := by
  unfold WF
  infer_instance

end Cacher

namespace Mirror

/-- `httpRetries` of `src/mirror/mirror.go`. -/
def httpRetries : Nat := 5

/-- Outcome of storing a response body (`Storage.Store` or
`Storage.StoreWithHash`, modelled from the spec as the mirror storage
is an external collaborator here): success, the `ErrInvalidData`
sentinel, or another error. -/
inductive StoreOut
  | ok
  | invalidData
  | err (c : Nat)
deriving Repr, DecidableEq

/-- Outcome of one HTTP round trip: a transport error or a response
with a status code, together with the store outcome that would result
from streaming its body. -/
inductive NetOut
  | transportErr
  | http (status : Nat) (store : StoreOut)
deriving Repr, DecidableEq

/-- Environment of one `download` goroutine: whether the context is
cancelled at each loop entry, and the network outcome of each
iteration. -/
structure DlEnv where
  ctxDone : Nat → Bool
  net : Nat → NetOut

/-- Errors recorded in `dlResult.err`. -/
inductive DlErr
  | ctx
  | transport
  | invalidData
  | storeErr (c : Nat)
deriving Repr, DecidableEq

/-- `dlResult` of `src/mirror/mirror.go`. -/
structure DlResult where
  status : Nat
  path : String
  fi : Option FileInfo
  err : Option DlErr
deriving Repr, DecidableEq

/-- One observable iteration of the download retry loop: the requested
target, the value of the retry counter, the backoff slept before the
request (none on the first try), and the network outcome. -/
structure Attempt where
  target : String
  retries : Nat
  slept : Option Nat
  out : NetOut
deriving Repr, DecidableEq

/-- The `RETRY` loop of `download`: context check, backoff sleep when
`retries > 0`, GET of the head target; transport errors and 5xx bump
the retry counter up to `httpRetries`; other non-200 statuses return;
on 200 the body is stored, and `ErrInvalidData` with more than one
remaining target drops the head target without touching the retry
counter.  `lastStatus` threads the last status code written to the
result (the source only overwrites it when a response arrives). -/
def dlLoop (env : DlEnv) (p : String) (fi : Option FileInfo) (ts : List String)
    (retries iter lastStatus : Nat) : DlResult × List Attempt :=
  if env.ctxDone iter then
    ({ status := lastStatus, path := p, fi := none, err := some .ctx }, [])
  else
    let slept : Option Nat := if retries > 0 then some (2 ^ (retries - 1)) else none
    let tgt := ts.headD p
    match env.net iter with
    | .transportErr =>
      let a : Attempt := ⟨tgt, retries, slept, .transportErr⟩
      if h : retries < httpRetries then
        let r := dlLoop env p fi ts (retries + 1) (iter + 1) lastStatus
        (r.1, a :: r.2)
      else ({ status := lastStatus, path := p, fi := none, err := some .transport }, [a])
    | .http st sto =>
      let a : Attempt := ⟨tgt, retries, slept, .http st sto⟩
      if h : st ≥ 500 ∧ retries < httpRetries then
        let r := dlLoop env p fi ts (retries + 1) (iter + 1) st
        (r.1, a :: r.2)
      else if st ≠ 200 then ({ status := st, path := p, fi := none, err := none }, [a])
      else
        match sto with
        | .ok => ({ status := st, path := p, fi := fi, err := none }, [a])
        | .err c => ({ status := st, path := p, fi := none, err := some (.storeErr c) }, [a])
        | .invalidData =>
          if h : ts.length > 1 then
            let r := dlLoop env p fi ts.tail retries (iter + 1) st
            (r.1, a :: r.2)
          else ({ status := st, path := p, fi := none, err := some .invalidData }, [a])
termination_by (httpRetries + 1 - retries) + ts.length
decreasing_by
  all_goals first
  | omega
  | (cases ts with
     | nil => simp at h
     | cons x xs => simp_all <;> omega)

/-- The alternate target list built at the top of `download`:
`[]string{p}`, extended with the three by-hash paths when `byhash` is
requested and a FileInfo is supplied. -/
def dlTargets (p : String) (fi : Option FileInfo) (byhash : Bool) : List String :=
  match fi, byhash with
  | some f, true => [p, f.sha256Path, f.sha1Path, f.md5SumPath]
  | _, _ => [p]

/-- `download` of `src/mirror/mirror.go`, returning the result record
and the trace of loop iterations. -/
def download (env : DlEnv) (p : String) (fi : Option FileInfo) (byhash : Bool) :
    DlResult × List Attempt :=
  dlLoop env p fi (dlTargets p fi byhash) 0 0 0

/-- Consistency of a download trace with the retry discipline, checked
against the remaining target list and the retry counter: every attempt
requests the head target, carries the current counter, sleeps
`2 ^ (retries - 1)` exactly when the counter is positive; transport
errors and 5xx increment the counter (only below `httpRetries`,
otherwise the loop ends), other non-200 statuses end the loop, and a
200 whose store reports invalid data drops to the next alternate
target with the counter unchanged — when one remains. -/
def chainOk (p : String) : List String → Nat → List Attempt → Bool
  | _, _, [] => true
  | ts, r, a :: rest =>
    (a.target == ts.headD p) && (a.retries == r) &&
    (a.slept == if r > 0 then some (2 ^ (r - 1)) else none) &&
    (match a.out with
     | .transportErr =>
       if r < httpRetries then chainOk p ts (r + 1) rest else rest.isEmpty
     | .http st sto =>
       if st ≥ 500 ∧ r < httpRetries then chainOk p ts (r + 1) rest
       else if st ≠ 200 then rest.isEmpty
       else
         match sto with
         | .invalidData => if ts.length > 1 then chainOk p ts.tail r rest else rest.isEmpty
         | _ => rest.isEmpty)

/-- Errors surfaced by the download pipeline consumer. -/
inductive MErr
  | dl (e : DlErr)
  | statusErr (status : Nat) (path : String)
deriving Repr, DecidableEq

/-- `recvResult` of `src/mirror/mirror.go`: drain the results channel
(modelled as the list of received results, in order); a result carrying
an error fails; a 404 is skipped when `allowMissing`; any other
non-200 status fails; otherwise the result FileInfo is accumulated.
The `byhash` parameter is unused by the source body. -/
def recvResult (allowMissing byhash : Bool) : List DlResult → Except MErr (List (Option FileInfo))
  | [] => .ok []
  | r :: rest =>
    match r.err with
    | some e => .error (.dl e)
    | none =>
      if allowMissing && r.status == 404 then recvResult allowMissing byhash rest
      else if r.status != 200 then .error (.statusErr r.status r.path)
      else
        match recvResult allowMissing byhash rest with
        | .error e => .error e
        | .ok fil => .ok (r.fi :: fil)

/-- `downloadFiles` of the source at the granularity of the consumer:
the producer side (reuse or dispatch) is concurrent and abstracted to
the multiset of download results it delivers to the channel. -/
def downloadFiles (allowMissing byhash : Bool) (results : List DlResult) :
    Except MErr (List (Option FileInfo)) :=
  recvResult allowMissing byhash results

/-- `downloadItems` of the source: the collected item FileInfos are the
values of `fiMap`; the call is `downloadFiles(ctx, fil, false, false)`
— `allowMissing` is passed as `false`. -/
def downloadItems (results : List DlResult) : Except MErr (List (Option FileInfo)) :=
  downloadFiles false false results

/-- `downloadIndices` of the source: the call is
`downloadFiles(ctx, fil, true, byhash)` — `allowMissing` is passed as
`true` and `byhash` is forwarded. -/
def downloadIndices (byhash : Bool) (results : List DlResult) :
    Except MErr (List (Option FileInfo)) :=
  downloadFiles true byhash results

/-- External events of one `Update`, in program order: the per-suite
work (`updateSuite`, which downloads the releases and indices of one
suite), the item download phase, the metadata save, and the five
publication steps of `replaceLink`. -/
inductive MEv
  | suite (i : Nat)
  | dlItems
  | save
  | rmTmpLink
  | symlink
  | syncDir1
  | renameLink
  | syncDir2
deriving Repr, DecidableEq

/-- The publication events: everything `replaceLink` performs. -/
def isPubEv : MEv → Bool
  | .rmTmpLink => true
  | .symlink => true
  | .syncDir1 => true
  | .renameLink => true
  | .syncDir2 => true
  | _ => false

/-- Environment of one `Update`: success of each suite update, of the
item download phase, of `storage.Save`, and of the four fallible
publication calls. -/
structure UpdateEnv where
  suiteRes : List Bool
  itemsOk : Bool
  saveOk : Bool
  symlinkOk : Bool
  sync1Ok : Bool
  renameOk : Bool
  sync2Ok : Bool

/-- The suite loop of `Update`: suites are processed sequentially and
the first failure aborts. -/
def runSuites : Nat → List Bool → Bool × List MEv
  | _, [] => (true, [])
  | i, b :: rest =>
    if b then
      let r := runSuites (i + 1) rest
      (r.1, MEv.suite i :: r.2)
    else (false, [MEv.suite i])

/-- `replaceLink` of `src/mirror/mirror.go`: remove the stale temp
link (error ignored), create the symlink into the snapshot directory,
fsync the directory, rename the temp link over the published name,
fsync the directory again; each step runs only if the previous one
succeeded. -/
def replaceLink (e : UpdateEnv) : Bool × List MEv :=
  if ¬ e.symlinkOk then (false, [.rmTmpLink, .symlink])
  else if ¬ e.sync1Ok then (false, [.rmTmpLink, .symlink, .syncDir1])
  else if ¬ e.renameOk then (false, [.rmTmpLink, .symlink, .syncDir1, .renameLink])
  else (e.sync2Ok, [.rmTmpLink, .symlink, .syncDir1, .renameLink, .syncDir2])

/-- `Update` of `src/mirror/mirror.go`: the suite loop, then
`downloadItems`, then `storage.Save`, then `replaceLink`; each phase
runs only if every previous phase succeeded. -/
def update (e : UpdateEnv) : Bool × List MEv :=
  let su := runSuites 0 e.suiteRes
  if ¬ su.1 then (false, su.2)
  else if ¬ e.itemsOk then (false, su.2 ++ [.dlItems])
  else if ¬ e.saveOk then (false, su.2 ++ [.dlItems, .save])
  else
    let rl := replaceLink e
    (rl.1, su.2 ++ [.dlItems, .save] ++ rl.2)

end Mirror

/-! ### Properties of the cacher storage -/

namespace Cacher

theorem popMinAux_perm : ∀ l e r, popMinAux l = some (e, r) → l.Perm (e :: r) := by
  intro l
  induction l with
  | nil => intro e r h; simp [popMinAux] at h
  | cons a rest ih =>
    intro e r h
    simp only [popMinAux] at h
    cases hm : popMinAux rest with
    | none =>
      rw [hm] at h
      have hr := popMinAux_eq_none rest hm
      subst hr
      simp at h
      obtain ⟨he, hrr⟩ := h
      subst_vars
      exact List.Perm.refl _
    | some pr =>
      obtain ⟨m, r2⟩ := pr
      rw [hm] at h
      have hp := ih m r2 hm
      by_cases hc : a.atime ≤ m.atime
      · simp [hc] at h
        obtain ⟨he, hrr⟩ := h
        subst_vars
        exact List.Perm.refl _
      · simp [hc] at h
        obtain ⟨he, hrr⟩ := h
        subst_vars
        exact (hp.cons a).trans (List.Perm.swap m a r2)

theorem popMinAux_min : ∀ l e r, popMinAux l = some (e, r) →
    ∀ x ∈ r, e.atime ≤ x.atime := by
  intro l
  induction l with
  | nil => intro e r h; simp [popMinAux] at h
  | cons a rest ih =>
    intro e r h x hx
    simp only [popMinAux] at h
    cases hm : popMinAux rest with
    | none =>
      rw [hm] at h
      simp at h
      obtain ⟨he, hrr⟩ := h
      subst_vars
      simp at hx
    | some pr =>
      obtain ⟨m, r2⟩ := pr
      rw [hm] at h
      have hmin := ih m r2 hm
      have hperm := popMinAux_perm rest m r2 hm
      by_cases hc : a.atime ≤ m.atime
      · simp [hc] at h
        obtain ⟨he, hrr⟩ := h
        subst_vars
        have hx2 : x ∈ m :: r2 := hperm.mem_iff.mp hx
        rcases List.mem_cons.mp hx2 with hxm | hxr
        · subst hxm; exact hc
        · exact le_trans hc (hmin x hxr)
      · simp [hc] at h
        obtain ⟨he, hrr⟩ := h
        subst_vars
        rcases List.mem_cons.mp hx with hxa | hxr
        · subst hxa; omega
        · exact hmin x hxr

theorem maint_no_evict (s : Storage) (h : s.capacity = 0 ∨ s.used ≤ s.capacity) :
    s.maint = s := by
  rw [Storage.maint]
  split
  · next hc => exfalso; rcases h with h0 | hle <;> omega
  · rfl

theorem maint_eq_of_none (s : Storage) (hm : popMinAux s.entries = none) :
    s.maint = s := by
  rw [Storage.maint]
  split
  · split
    · next => rfl
    · next e2 rest2 heq => rw [hm] at heq; cases heq
  · rfl

theorem maint_step (s : Storage) (hc : 0 < s.capacity) (hu : s.capacity < s.used)
    (e : Entry) (rest : List Entry) (hm : popMinAux s.entries = some (e, rest)) :
    s.maint = Storage.maint { s with entries := rest, used := s.used - e.fi.size } := by
  conv_lhs => rw [Storage.maint]
  split
  · split
    · next heq => rw [hm] at heq; cases heq
    · next e2 rest2 heq =>
      rw [hm] at heq
      cases heq
      rfl
  · next hcon => exact absurd ⟨hc, hu⟩ hcon

/-- `maint` only removes entries, keeps the accounting equation, and
touches nothing else of the state. -/
theorem maint_shape : ∀ n (s : Storage), s.entries.length ≤ n →
    s.maint.entries.Subperm s.entries ∧
    (s.used = (s.entries.map fun e => e.fi.size).sum →
      s.maint.used = (s.maint.entries.map fun e => e.fi.size).sum) ∧
    s.maint.lclock = s.lclock ∧ s.maint.capacity = s.capacity ∧ s.maint.dir = s.dir := by
  intro n
  induction n with
  | zero =>
    intro s hl
    have he : s.entries = [] := List.length_eq_zero.mp (Nat.le_zero.mp hl)
    rw [Storage.maint]
    split
    · split
      · next => simp [he]
      · next e2 rest2 heq =>
        rw [he] at heq
        simp [popMinAux] at heq
    · simp [he]
  | succ n ih =>
    intro s hl
    by_cases hrun : 0 < s.capacity ∧ s.capacity < s.used
    · cases hm : popMinAux s.entries with
      | none =>
        rw [maint_eq_of_none s hm]
        exact ⟨List.Subperm.refl _, fun h => h, rfl, rfl, rfl⟩
      | some pr =>
        obtain ⟨e, rest⟩ := pr
        rw [maint_step s hrun.1 hrun.2 e rest hm]
        have hlen := popMinAux_length _ _ _ hm
        have hperm := popMinAux_perm _ _ _ hm
        obtain ⟨ih1, ih2, ih3, ih4, ih5⟩ :=
          ih { s with entries := rest, used := s.used - e.fi.size } (by simp; omega)
        have hrsub : rest.Subperm s.entries := by
          have h1 : rest.Sublist (e :: rest) := List.sublist_cons_self e rest
          exact h1.subperm.trans hperm.symm.subperm
        have ih1' : (Storage.maint
            { s with entries := rest, used := s.used - e.fi.size }).entries.Subperm rest := by
          simpa using ih1
        refine ⟨ih1'.trans hrsub, ?_, by simpa using ih3, by simpa using ih4, by simpa using ih5⟩
        intro hsum
        apply ih2
        have hs : (s.entries.map fun e => e.fi.size).sum =
            e.fi.size + ((rest.map fun e => e.fi.size)).sum := by
          have hp2 := hperm.map (fun e => e.fi.size)
          rw [hp2.sum_eq]
          simp
        simp only
        omega
    · rw [maint_no_evict s (by omega)]
      exact ⟨List.Subperm.refl _, fun h => h, rfl, rfl, rfl⟩

theorem maint_used_le_aux : ∀ n (s : Storage), s.entries.length ≤ n →
    s.used = (s.entries.map fun e => e.fi.size).sum → 0 < s.capacity →
    s.maint.used ≤ s.capacity := by
  intro n
  induction n with
  | zero =>
    intro s hl hsum hc
    have he : s.entries = [] := List.length_eq_zero.mp (Nat.le_zero.mp hl)
    rw [he] at hsum
    simp at hsum
    rw [maint_no_evict s (Or.inr (by omega))]
    omega
  | succ n ih =>
    intro s hl hsum hc
    by_cases hu : s.used ≤ s.capacity
    · rw [maint_no_evict s (Or.inr hu)]
      exact hu
    · have hu2 : s.capacity < s.used := by omega
      cases hm : popMinAux s.entries with
      | none =>
        have he := popMinAux_eq_none _ hm
        rw [he] at hsum
        simp at hsum
        omega
      | some pr =>
        obtain ⟨e, rest⟩ := pr
        rw [maint_step s hc hu2 e rest hm]
        have hlen := popMinAux_length _ _ _ hm
        have hperm := popMinAux_perm _ _ _ hm
        apply ih
        · simp
          omega
        · have hs : (s.entries.map fun x => x.fi.size).sum =
              e.fi.size + ((rest.map fun x => x.fi.size)).sum := by
            have hp2 := hperm.map (fun x => x.fi.size)
            rw [hp2.sum_eq]
            simp
          simp only
          omega
        · simpa using hc

/-- `maint` evicts down to the capacity whenever the accounting
equation holds. -/
theorem maint_used_le (s : Storage) (hsum : s.used = (s.entries.map fun e => e.fi.size).sum)
    (hc : 0 < s.capacity) : s.maint.used ≤ s.capacity :=
  maint_used_le_aux s.entries.length s le_rfl hsum hc

theorem find_erase_perm : ∀ (l : List Entry) (p : String) (ex : Entry),
    l.find? (fun e => e.fi.path == p) = some ex → l.Perm (ex :: erasePath p l) := by
  intro l
  induction l with
  | nil => intro p ex h; simp at h
  | cons a rest ih =>
    intro p ex h
    by_cases hp : a.fi.path = p
    · rw [List.find?_cons_of_pos _ (by simp [hp])] at h
      cases h
      simp [erasePath, hp]
    · rw [List.find?_cons_of_neg _ (by simp [hp])] at h
      have hperm := ih p ex h
      simp only [erasePath, if_neg (by simp [hp] : ¬ (a.fi.path == p) = true)]
      exact (hperm.cons a).trans (List.Perm.swap ex a (erasePath p rest))

theorem mem_erasePath_of_ne : ∀ (l : List Entry) (p : String) (e : Entry),
    e ∈ l → e.fi.path ≠ p → e ∈ erasePath p l := by
  intro l
  induction l with
  | nil => intro p e h _; simp at h
  | cons a rest ih =>
    intro p e h hne
    rcases List.mem_cons.mp h with rfl | hm
    · simp [erasePath, hne]
    · by_cases hp : a.fi.path = p
      · simpa [erasePath, hp] using hm
      · simp only [erasePath, if_neg (by simp [hp] : ¬ (a.fi.path == p) = true)]
        exact List.mem_cons.mpr (Or.inr (ih p e hm hne))

theorem updatePath_decomp : ∀ (l : List Entry) (p : String) (ex : Entry),
    l.find? (fun e => e.fi.path == p) = some ex →
    ∃ l1 l2, l = l1 ++ ex :: l2 ∧ (∀ x ∈ l1, x.fi.path ≠ p) ∧
      ∀ f, updatePath p f l = l1 ++ f ex :: l2 := by
  intro l
  induction l with
  | nil => intro p ex h; simp at h
  | cons a rest ih =>
    intro p ex h
    by_cases hp : a.fi.path = p
    · rw [List.find?_cons_of_pos _ (by simp [hp])] at h
      cases h
      refine ⟨[], rest, by simp, by simp, ?_⟩
      intro f
      simp [updatePath, hp]
    · rw [List.find?_cons_of_neg _ (by simp [hp])] at h
      obtain ⟨l1, l2, hl, hl1, hup⟩ := ih p ex h
      refine ⟨a :: l1, l2, by simp [hl], ?_, ?_⟩
      · intro x hx
        rcases List.mem_cons.mp hx with rfl | hm
        · exact hp
        · exact hl1 x hm
      · intro f
        simp only [updatePath, if_neg (by simp [hp] : ¬ (a.fi.path == p) = true), hup f,
          List.cons_append]

theorem find_append_cons (l1 l2 : List Entry) (e : Entry) (p : String)
    (h1 : ∀ x ∈ l1, x.fi.path ≠ p) (he : e.fi.path = p) :
    (l1 ++ e :: l2).find? (fun x => x.fi.path == p) = some e := by
  induction l1 with
  | nil =>
    rw [List.nil_append]
    exact List.find?_cons_of_pos _ (by simp [he])
  | cons a rest ih =>
    rw [List.cons_append,
      List.find?_cons_of_neg _ (by simp [h1 a (List.mem_cons_self a rest)])]
    exact ih (fun x hx => h1 x (List.mem_cons.mpr (Or.inr hx)))

/-- Pairwise properties with a symmetric relation survive taking a
sub-multiset. -/
theorem pairwise_of_subperm {R : Entry → Entry → Prop} (hs : Symmetric R)
    {l1 l2 : List Entry} (h : l1.Subperm l2) (hp : l2.Pairwise R) : l1.Pairwise R := by
  obtain ⟨l3, hperm, hsub⟩ := h
  exact (hperm.pairwise_iff (fun hab => hs hab)).mp (hp.sublist hsub)

/-- The state returned by the mutex-held tail of `Insert` is the input
state (on a hard remove failure), the base state with the existing
entry removed (on a rename failure), or `maint` of the enrolled
state. -/
theorem insertLocked_cases (env : InsertEnv) (fi2 : FileInfo) (p : String) (s : Storage) :
    (insertLocked env fi2 p s).2.1 = s ∨
    (insertLocked env fi2 p s).2.1 = insertBase s p ∨
    (insertLocked env fi2 p s).2.1 = (enroll (insertBase s p) fi2).maint := by
  unfold insertLocked
  cases hf : findEntry s p with
  | none =>
    have hb : insertBase s p = s := by unfold insertBase; rw [hf]
    cases hr : env.rename with
    | error c => simp only [hr]; exact Or.inl (by trivial)
    | ok u => simp only [hr]; right; right; rw [hb]; rfl
  | some ex =>
    have hb : insertBase s p =
        { s with entries := erasePath p s.entries, used := s.used - ex.fi.size } := by
      unfold insertBase; rw [hf]
    cases hrm : env.removeDest with
    | fail c => simp only [hrm]; exact Or.inl (by trivial)
    | ok =>
      cases hr : env.rename with
      | error c => simp only [hrm, hr]; right; left; rw [hb]
      | ok u => simp only [hrm, hr]; right; right; rw [hb]; rfl
    | notExist =>
      cases hr : env.rename with
      | error c => simp only [hrm, hr]; right; left; rw [hb]
      | ok u => simp only [hrm, hr]; right; right; rw [hb]; rfl

/-- The state returned by `Insert` is unchanged, the base state with
the existing entry removed, or `maint` of the enrolled state. -/
theorem insert_state_cases (H : HashFns) (env : InsertEnv) (p : String)
    (fi0 : Option FileInfo) (s : Storage) :
    (s.insert H env p fi0).2.1 = s ∨
    (s.insert H env p fi0).2.1 = insertBase s p ∨
    ∃ data, (s.insert H env p fi0).2.1 = (enroll (insertBase s p) (copyWithFileInfo H p data)).maint := by
  unfold Storage.insert
  split
  · exact Or.inl (by trivial)
  · cases htf : env.tempFile with
    | error c => simp only [htf]; exact Or.inl (by trivial)
    | ok u =>
      cases hcp : env.copy with
      | error c => simp only [htf, hcp]; exact Or.inl (by trivial)
      | ok data =>
        cases hsy : env.sync with
        | error c => simp only [htf, hcp, hsy]; exact Or.inl (by trivial)
        | ok u2 =>
          simp only [htf, hcp, hsy]
          split
          · exact Or.inl (by trivial)
          · cases hst : env.stat with
            | error c => simp only [hst]; exact Or.inl (by trivial)
            | ok u3 =>
              simp only [hst]
              rcases insertLocked_cases env (copyWithFileInfo H p data) p s with h | h | h
              · exact Or.inl h
              · exact Or.inr (Or.inl h)
              · exact Or.inr (Or.inr ⟨data, h⟩)

/-- The walk loop of `Load` appends the enrolled entries (never
touching those already present), gives them consecutive atimes
starting at the incoming clock, advances the clock once per enrolled
file, enrolls only paths absent from the incoming cache and enrolls
each path at most once, and preserves the accounting equation. -/
theorem loadCore_facts : ∀ (items : List WalkItem) (s : Storage),
    ∃ new, (loadCore items s).2.entries = s.entries ++ new ∧
      (loadCore items s).2.lclock = s.lclock + new.length ∧
      new.map (fun e => e.atime) = List.range' s.lclock new.length ∧
      (∀ x ∈ new, ∀ y ∈ s.entries, x.fi.path ≠ y.fi.path) ∧
      new.Pairwise (fun a b => a.fi.path ≠ b.fi.path) ∧
      (loadCore items s).2.capacity = s.capacity ∧
      (loadCore items s).2.dir = s.dir ∧
      (s.used = (s.entries.map fun e => e.fi.size).sum →
        (loadCore items s).2.used = ((loadCore items s).2.entries.map fun e => e.fi.size).sum) := by
  intro items
  induction items with
  | nil =>
    intro s
    refine ⟨[], by simp [loadCore], by simp [loadCore], by simp [loadCore], by simp, by simp,
      by simp [loadCore], by simp [loadCore], ?_⟩
    intro h
    simpa [loadCore] using h
  | cons it rest ih =>
    intro s
    cases he : it.err with
    | some c =>
      refine ⟨[], by simp [loadCore, he], by simp [loadCore, he], by simp [loadCore, he],
        by simp, by simp, by simp [loadCore, he], by simp [loadCore, he], ?_⟩
      intro h
      simpa [loadCore, he] using h
    | none =>
      by_cases hreg : it.regular
      · by_cases hext : hasCacheExt it.subpath
        · cases hfe : findEntry s (strDropRight it.subpath 6) with
          | some ex =>
            have hstep : loadCore (it :: rest) s = loadCore rest s := by
              simp [loadCore, he, hreg, hext, hfe]
            rw [hstep]
            exact ih s
          | none =>
            have hstep : loadCore (it :: rest) s = loadCore rest
                { s with
                  entries := s.entries ++
                    [⟨makeFileInfoNoChecksum (strDropRight it.subpath 6) it.size, s.lclock⟩],
                  used := s.used + it.size, lclock := s.lclock + 1 } := by
              simp [loadCore, he, hreg, hext, hfe]
            rw [hstep]
            generalize hkey : strDropRight it.subpath 6 = key at hfe ⊢
            obtain ⟨new, h1, h2, h3, h4, h5, h6, h7, h8⟩ := ih
              { s with
                entries := s.entries ++
                  [⟨makeFileInfoNoChecksum key it.size, s.lclock⟩],
                used := s.used + it.size, lclock := s.lclock + 1 }
            have hpaths : ∀ y ∈ s.entries, y.fi.path ≠ key := by
              intro y hy
              have := List.find?_eq_none.mp hfe y hy
              simpa using this
            refine ⟨⟨makeFileInfoNoChecksum key it.size, s.lclock⟩ :: new,
              ?_, ?_, ?_, ?_, ?_, ?_, ?_, ?_⟩
            · rw [h1]; simp
            · rw [h2]; simp; omega
            · simp only [List.map_cons, List.length_cons]
              rw [List.range'_succ]
              simp at h3
              rw [h3]
            · intro x hx y hy
              rcases List.mem_cons.mp hx with rfl | hxn
              · exact Ne.symm (hpaths y hy)
              · exact h4 x hxn y (by simp [hy])
            · refine List.Pairwise.cons ?_ h5
              intro x hx
              have hx4 := h4 x hx
                ⟨makeFileInfoNoChecksum key it.size, s.lclock⟩ (by simp)
              exact Ne.symm hx4
            · rw [h6]
            · rw [h7]
            · intro hsum
              apply h8
              simp [makeFileInfoNoChecksum, hsum]
        · have hstep : loadCore (it :: rest) s = loadCore rest s := by
            simp [loadCore, he, hreg, hext]
          rw [hstep]
          exact ih s
      · have hstep : loadCore (it :: rest) s = loadCore rest s := by
          simp [loadCore, he, hreg]
        rw [hstep]
        exact ih s

/-- The mutex-held tail of `Insert` either succeeds with the streamed
FileInfo or fails with a propagated I/O error; it never produces
`ErrBadPath` or `ErrInvalidData`. -/
theorem insertLocked_result (env : InsertEnv) (fi2 : FileInfo) (p : String) (s : Storage) :
    (insertLocked env fi2 p s).1 = .ok fi2 ∨
    ∃ c, (insertLocked env fi2 p s).1 = .error (.ioErr c) := by
  unfold insertLocked
  cases hf : findEntry s p with
  | none =>
    cases hr : env.rename with
    | error c => simp only [hr]; exact Or.inr ⟨c, rfl⟩
    | ok u => simp only [hr]; exact Or.inl (by trivial)
  | some ex =>
    cases hrm : env.removeDest with
    | fail c => simp only [hrm]; exact Or.inr ⟨c, rfl⟩
    | ok =>
      cases hr : env.rename with
      | error c => simp only [hrm, hr]; exact Or.inr ⟨c, rfl⟩
      | ok u => simp only [hrm, hr]; exact Or.inl (by trivial)
    | notExist =>
      cases hr : env.rename with
      | error c => simp only [hrm, hr]; exact Or.inr ⟨c, rfl⟩
      | ok u => simp only [hrm, hr]; exact Or.inl (by trivial)

/-- Past the path checks, `Insert` never returns `ErrBadPath`. -/
theorem insert_not_badPath (H : HashFns) (env : InsertEnv) (p : String) (fi0 : Option FileInfo)
    (s : Storage) (hgood : ¬ (p ≠ goClean p ∨ goIsAbs p ∨ p = ".")) :
    (s.insert H env p fi0).1 ≠ .error .badPath := by
  unfold Storage.insert
  rw [if_neg hgood]
  cases htf : env.tempFile with
  | error c => simp
  | ok u =>
    cases hcp : env.copy with
    | error c => simp
    | ok data =>
      cases hsy : env.sync with
      | error c => simp
      | ok u2 =>
        simp only
        split
        · simp
        · cases hst : env.stat with
          | error c => simp
          | ok u3 =>
            simp only
            rcases insertLocked_result env (copyWithFileInfo H p data) p s with h | ⟨c, h⟩ <;>
              simp [h]

/-- The enroll step of `Lookup`: with the found entry decomposed out of
the entry list, both in-place mutations act exactly on it. -/
theorem updatePath_append (l1 l2 : List Entry) (e : Entry) (p : String) (f : Entry → Entry)
    (h1 : ∀ x ∈ l1, x.fi.path ≠ p) (he : e.fi.path = p) :
    updatePath p f (l1 ++ e :: l2) = l1 ++ f e :: l2 := by
  induction l1 with
  | nil => simp [updatePath, he]
  | cons a rest ih =>
    rw [List.cons_append, updatePath,
      if_neg (by simp [h1 a (List.mem_cons_self a rest)])]
    rw [ih (fun x hx => h1 x (List.mem_cons.mpr (Or.inr hx)))]
    rfl

/-- `Lookup` never changes `used`, `capacity`, `dir`, the number of
entries or their paths; the only in-memory effects are checksum
memoization, the atime bump and the clock. -/
theorem lookup_shape (H : HashFns) (env : LookupEnv) (fi : FileInfo) (s : Storage) :
    (s.lookup H env fi).2.used = s.used ∧
    (s.lookup H env fi).2.capacity = s.capacity ∧
    (s.lookup H env fi).2.dir = s.dir := by
  unfold Storage.lookup
  cases hf : findEntry s fi.path with
  | none => exact ⟨rfl, rfl, rfl⟩
  | some e =>
    simp only
    split
    · exact ⟨rfl, rfl, rfl⟩
    · split
      · exact ⟨rfl, rfl, rfl⟩
      · split
        · exact ⟨rfl, rfl, rfl⟩
        · exact ⟨rfl, rfl, rfl⟩


/-- The entry list after the two in-place mutations of a successful
`Lookup`: the touched entry carries the fresh clock value, which under
well-formedness strictly dominates every other atime; no entry is
added or removed and no path changes. -/
theorem bump_state_max (s : Storage) (fi newFi : FileInfo) (e : Entry)
    (hwf : WF s) (hf : findEntry s fi.path = some e) (hpath : newFi.path = e.fi.path) :
    ∃ e2, e2 ∈ bumpEntries s fi.path newFi ∧ e2.fi.path = fi.path ∧ e2.atime = s.lclock ∧
      (∀ x ∈ bumpEntries s fi.path newFi, x ≠ e2 → x.atime < e2.atime) ∧
      (bumpEntries s fi.path newFi).map (fun x => x.fi.path) =
        s.entries.map (fun x => x.fi.path) := by
  have hpe : e.fi.path = fi.path := by
    have := List.find?_some hf
    simpa using this
  obtain ⟨l1, l2, hsplit, hl1, hup⟩ := updatePath_decomp s.entries fi.path e hf
  have hup1 := hup (fun e0 => { e0 with fi := newFi })
  have hup2 : updatePath fi.path (fun e0 => { e0 with atime := s.lclock })
      (l1 ++ { e with fi := newFi } :: l2) =
      l1 ++ { e with fi := newFi, atime := s.lclock } :: l2 := by
    exact updatePath_append l1 l2 { e with fi := newFi } fi.path _ hl1 (by simpa [hpath])
  have hbe : bumpEntries s fi.path newFi = l1 ++ { e with fi := newFi, atime := s.lclock } :: l2 := by
    rw [bumpEntries, hup1, hup2]
  refine ⟨{ e with fi := newFi, atime := s.lclock }, ?_, ?_, rfl, ?_, ?_⟩
  · rw [hbe]; simp
  · simpa [hpath]
  · intro x hx hne
    rw [hbe] at hx
    rcases List.mem_append.mp hx with hx1 | hx2
    · have : x ∈ s.entries := by rw [hsplit]; exact List.mem_append.mpr (Or.inl hx1)
      exact hwf.2.2.2 x this
    · rcases List.mem_cons.mp hx2 with rfl | hx3
      · exact absurd rfl hne
      · have : x ∈ s.entries := by
          rw [hsplit]
          exact List.mem_append.mpr (Or.inr (List.mem_cons.mpr (Or.inr hx3)))
        exact hwf.2.2.2 x this
  · rw [hbe, hsplit]
    simp [hpath]

/-- C6: if Lookup(fi) returns success, the touched entry's atime has
been set to a value strictly greater than every other entry's atime
(the unique maximum), the clock advanced past it, and the entry
population (paths) is unchanged — the heap, modelled as a priority
queue over these entries, is reordered only. -/
theorem lookup_success_unique_max_atime (H : HashFns) (env : LookupEnv) (fi : FileInfo)
    (s : Storage) (hwf : WF s) (hok : (s.lookup H env fi).1 = .ok ()) :
    ∃ e2, e2 ∈ (s.lookup H env fi).2.entries ∧ e2.fi.path = fi.path ∧
      (∀ x ∈ (s.lookup H env fi).2.entries, x ≠ e2 → x.atime < e2.atime) ∧
      (s.lookup H env fi).2.entries.map (fun x => x.fi.path) =
        s.entries.map (fun x => x.fi.path) ∧
      (s.lookup H env fi).2.lclock = e2.atime + 1 := by
  cases hf : findEntry s fi.path with
  | none => simp [Storage.lookup, hf] at hok
  | some e =>
    by_cases hchk : e.fi.hasChecksum
    · by_cases hsame : fi.same e.fi
      · cases ho : env.openFile with
        | error c => simp [Storage.lookup, hf, hchk, hsame, ho] at hok
        | ok u =>
          have heq : (s.lookup H env fi).2 =
              { s with entries := bumpEntries s fi.path e.fi, lclock := s.lclock + 1 } := by
            simp [Storage.lookup, hf, hchk, hsame, ho, bumpEntries]
          obtain ⟨e2, h1, h2, h3, h4, h5⟩ := bump_state_max s fi e.fi e hwf hf rfl
          rw [heq]
          exact ⟨e2, h1, h2, h4, h5, by rw [h3]⟩
      · simp [Storage.lookup, hf, hchk, hsame] at hok
    · cases hrd : env.readData with
      | error c => simp [Storage.lookup, hf, hchk, hrd] at hok
      | ok data =>
        by_cases hsame : fi.same (e.fi.calcChecksums H data)
        · cases ho : env.openFile with
          | error c => simp [Storage.lookup, hf, hchk, hrd, hsame, ho] at hok
          | ok u =>
            have heq : (s.lookup H env fi).2 =
                { s with entries := bumpEntries s fi.path (e.fi.calcChecksums H data),
                         lclock := s.lclock + 1 } := by
              simp [Storage.lookup, hf, hchk, hrd, hsame, ho, bumpEntries]
            obtain ⟨e2, h1, h2, h3, h4, h5⟩ := bump_state_max s fi (e.fi.calcChecksums H data) e
              hwf hf (by simp [FileInfo.calcChecksums])
            rw [heq]
            exact ⟨e2, h1, h2, h4, h5, by rw [h3]⟩
        · simp [Storage.lookup, hf, hchk, hrd, hsame] at hok

/-- Witness for C6 at a concrete one-entry cache. -/
theorem lookup_success_unique_max_atime_witness :
    ∃ e2, e2 ∈ ((⟨"/d", 0, 1, [⟨⟨"a", 1, some 0, none, none⟩, 0⟩], 1⟩ : Storage).lookup
        zeroHash ⟨Except.ok [], Except.ok ()⟩ ⟨"a", 1, some 0, none, none⟩).2.entries ∧
      e2.fi.path = (⟨"a", 1, some 0, none, none⟩ : FileInfo).path ∧
      (∀ x ∈ ((⟨"/d", 0, 1, [⟨⟨"a", 1, some 0, none, none⟩, 0⟩], 1⟩ : Storage).lookup
          zeroHash ⟨Except.ok [], Except.ok ()⟩ ⟨"a", 1, some 0, none, none⟩).2.entries,
        x ≠ e2 → x.atime < e2.atime) ∧
      ((⟨"/d", 0, 1, [⟨⟨"a", 1, some 0, none, none⟩, 0⟩], 1⟩ : Storage).lookup
          zeroHash ⟨Except.ok [], Except.ok ()⟩ ⟨"a", 1, some 0, none, none⟩).2.entries.map
          (fun x => x.fi.path) =
        (⟨"/d", 0, 1, [⟨⟨"a", 1, some 0, none, none⟩, 0⟩], 1⟩ : Storage).entries.map
          (fun x => x.fi.path) ∧
      ((⟨"/d", 0, 1, [⟨⟨"a", 1, some 0, none, none⟩, 0⟩], 1⟩ : Storage).lookup
          zeroHash ⟨Except.ok [], Except.ok ()⟩ ⟨"a", 1, some 0, none, none⟩).2.lclock =
        e2.atime + 1 :=
  lookup_success_unique_max_atime zeroHash ⟨Except.ok [], Except.ok ()⟩
    ⟨"a", 1, some 0, none, none⟩ ⟨"/d", 0, 1, [⟨⟨"a", 1, some 0, none, none⟩, 0⟩], 1⟩
    (by decide) (by rfl)

/-- C7: `Insert` returns `ErrBadPath` exactly when the path differs
from its cleaned form, is absolute, or is `.`; in particular `.`, the
empty path, `./x` and `/x` are all rejected, and a rejection returns
with the state untouched and no external action performed. -/
theorem insert_rejects_bad_paths (H : HashFns) (env : InsertEnv) (p : String)
    (fi0 : Option FileInfo) (s : Storage) :
    ((s.insert H env p fi0).1 = .error .badPath ↔ (p ≠ goClean p ∨ goIsAbs p ∨ p = ".")) ∧
    ((p ≠ goClean p ∨ goIsAbs p ∨ p = ".") → s.insert H env p fi0 = (.error .badPath, s, [])) ∧
    s.insert H env "." fi0 = (.error .badPath, s, []) ∧
    s.insert H env "" fi0 = (.error .badPath, s, []) ∧
    s.insert H env "./x" fi0 = (.error .badPath, s, []) ∧
    s.insert H env "/x" fi0 = (.error .badPath, s, []) := by
  have hrej : ∀ q, (q ≠ goClean q ∨ goIsAbs q ∨ q = ".") →
      s.insert H env q fi0 = (.error .badPath, s, []) := by
    intro q hq
    unfold Storage.insert
    rw [if_pos hq]
  refine ⟨⟨?_, ?_⟩, hrej p, hrej "." (by decide), hrej "" (by decide),
    hrej "./x" (by decide), hrej "/x" (by decide)⟩
  · intro hres
    by_cases hbad : (p ≠ goClean p ∨ goIsAbs p ∨ p = ".")
    · exact hbad
    · exact absurd hres (insert_not_badPath H env p fi0 s hbad)
  · intro hbad
    rw [hrej p hbad]

/-- Witness for C7 at a concrete call. -/
theorem insert_rejects_bad_paths_witness :
    (newStorage "/d" 0).insert zeroHash
        ⟨Except.ok (), Except.ok [], Except.ok (), Except.ok (), RmOut.ok, Except.ok ()⟩
        "./x" none =
      (.error .badPath, newStorage "/d" 0, []) :=
  (insert_rejects_bad_paths zeroHash
    ⟨Except.ok (), Except.ok [], Except.ok (), Except.ok (), RmOut.ok, Except.ok ()⟩
    "./x" none (newStorage "/d" 0)).2.1 (by decide)

/-- C9: when the cached entry carries no checksums (enrolled by `Load`
with size only) and the deferred checksum read fails, `Lookup` returns
that I/O error — not `ErrNotFound` — and the state (atimes and the
clock included) is exactly unchanged. -/
theorem lookup_propagates_read_error (H : HashFns) (env : LookupEnv) (fi : FileInfo)
    (s : Storage) (e : Entry) (c : Nat)
    (hf : findEntry s fi.path = some e) (hcs : e.fi.hasChecksum = false)
    (hrd : env.readData = .error c) :
    s.lookup H env fi = (.error (.ioErr c), s) := by
  simp [Storage.lookup, hf, hcs, hrd]

/-- Witness for C9 at a concrete cache whose single entry was enrolled
without checksums. -/
theorem lookup_propagates_read_error_witness :
    (⟨"/d", 0, 2, [⟨⟨"a", 2, none, none, none⟩, 0⟩], 1⟩ : Storage).lookup
        zeroHash ⟨Except.error 7, Except.ok ()⟩ ⟨"a", 2, some 0, none, none⟩ =
      (.error (.ioErr 7), ⟨"/d", 0, 2, [⟨⟨"a", 2, none, none, none⟩, 0⟩], 1⟩) :=
  lookup_propagates_read_error zeroHash ⟨Except.error 7, Except.ok ()⟩
    ⟨"a", 2, some 0, none, none⟩ ⟨"/d", 0, 2, [⟨⟨"a", 2, none, none, none⟩, 0⟩], 1⟩
    ⟨⟨"a", 2, none, none, none⟩, 0⟩ 7 rfl rfl rfl

/-- Whenever `Insert` reports `ErrInvalidData` it does so from the
pre-lock validation: the call returns with the state untouched and a
trace showing only the temp file creation and its deferred removal. -/
theorem insert_invalidData_shape (H : HashFns) (env : InsertEnv) (p : String)
    (fi0 : Option FileInfo) (s : Storage)
    (hres : (s.insert H env p fi0).1 = .error .invalidData) :
    s.insert H env p fi0 = (.error .invalidData, s, [.createTemp, .removeTemp]) := by
  unfold Storage.insert at hres ⊢
  split at hres
  · simp at hres
  · next hgood =>
    rw [if_neg hgood]
    cases htf : env.tempFile with
    | error c => rw [htf] at hres; simp at hres
    | ok u =>
      rw [htf] at hres
      cases hcp : env.copy with
      | error c => rw [hcp] at hres; simp at hres
      | ok data =>
        rw [hcp] at hres
        cases hsy : env.sync with
        | error c => rw [hsy] at hres; simp at hres
        | ok u2 =>
          rw [hsy] at hres
          simp only at hres ⊢
          by_cases hinv : invalidCheck fi0 (copyWithFileInfo H p data)
          · rw [if_pos hinv]
          · rw [if_neg hinv] at hres ⊢
            cases hst : env.stat with
            | error c => rw [hst] at hres; simp at hres
            | ok u3 =>
              rw [hst] at hres
              simp only at hres
              rcases insertLocked_result env (copyWithFileInfo H p data) p s with h | ⟨c, h⟩ <;>
                rw [h] at hres <;> simp at hres

/-- C8: when `Insert` fails with `ErrBadPath`, a streaming-copy error,
an fsync error or `ErrInvalidData`, the in-memory state is exactly as
before the call; the temp file is created and removed (never for
`ErrBadPath`, which performs no external action), and the
`ErrInvalidData` check runs before the mutex is taken and before any
existing entry is disturbed — its trace contains no lock event. -/
theorem insert_error_leaves_state_intact (H : HashFns) (env : InsertEnv) (p : String)
    (fi0 : Option FileInfo) (s : Storage) :
    ((s.insert H env p fi0).1 = .error .badPath →
      (s.insert H env p fi0).2.1 = s ∧ (s.insert H env p fi0).2.2 = []) ∧
    ((s.insert H env p fi0).1 = .error .invalidData →
      (s.insert H env p fi0).2.1 = s ∧
      (s.insert H env p fi0).2.2 = [.createTemp, .removeTemp] ∧
      Trc.lock ∉ (s.insert H env p fi0).2.2) ∧
    (∀ c, env.tempFile = .ok () → env.copy = .error c →
      ¬ (p ≠ goClean p ∨ goIsAbs p ∨ p = ".") →
      s.insert H env p fi0 = (.error (.ioErr c), s, [.createTemp, .removeTemp])) ∧
    (∀ c data, env.tempFile = .ok () → env.copy = .ok data → env.sync = .error c →
      ¬ (p ≠ goClean p ∨ goIsAbs p ∨ p = ".") →
      s.insert H env p fi0 = (.error (.ioErr c), s, [.createTemp, .removeTemp])) := by
  refine ⟨?_, ?_, ?_, ?_⟩
  · intro hres
    by_cases hbad : (p ≠ goClean p ∨ goIsAbs p ∨ p = ".")
    · have h : s.insert H env p fi0 = (.error .badPath, s, []) := by
        unfold Storage.insert
        rw [if_pos hbad]
      rw [h]
      exact ⟨rfl, rfl⟩
    · exact absurd hres (insert_not_badPath H env p fi0 s hbad)
  · intro hres
    have h := insert_invalidData_shape H env p fi0 s hres
    rw [h]
    refine ⟨rfl, rfl, by simp⟩
  · intro c htf hcp hgood
    unfold Storage.insert
    rw [if_neg hgood, htf, hcp]
  · intro c data htf hcp hsy hgood
    unfold Storage.insert
    rw [if_neg hgood, htf, hcp]
    simp only
    rw [hsy]

/-- Witness for C8: a concrete rejected call and a concrete
`ErrInvalidData` call, each leaving the cache untouched. -/
theorem insert_error_leaves_state_intact_witness :
    ((newStorage "/d" 0).insert zeroHash
        ⟨Except.ok (), Except.ok [0], Except.ok (), Except.ok (), RmOut.ok, Except.ok ()⟩
        "a" (some ⟨"a", 5, some 1, none, none⟩)).1 = .error .invalidData ∧
    ((newStorage "/d" 0).insert zeroHash
        ⟨Except.ok (), Except.ok [0], Except.ok (), Except.ok (), RmOut.ok, Except.ok ()⟩
        "a" (some ⟨"a", 5, some 1, none, none⟩)).2.1 = newStorage "/d" 0 ∧
    ((newStorage "/d" 0).insert zeroHash
        ⟨Except.ok (), Except.ok [0], Except.ok (), Except.ok (), RmOut.ok, Except.ok ()⟩
        "a" (some ⟨"a", 5, some 1, none, none⟩)).2.2 = [.createTemp, .removeTemp] ∧
    Trc.lock ∉ ((newStorage "/d" 0).insert zeroHash
        ⟨Except.ok (), Except.ok [0], Except.ok (), Except.ok (), RmOut.ok, Except.ok ()⟩
        "a" (some ⟨"a", 5, some 1, none, none⟩)).2.2 := by
  have h := (insert_error_leaves_state_intact zeroHash
    ⟨Except.ok (), Except.ok [0], Except.ok (), Except.ok (), RmOut.ok, Except.ok ()⟩
    "a" (some ⟨"a", 5, some 1, none, none⟩) (newStorage "/d" 0)).2.1 (by rfl)
  exact ⟨by rfl, h.1, h.2.1, h.2.2⟩

/-- C10: `Load` gives every newly enrolled `.cache` file a fresh
distinct atime — the enrolled atimes are exactly the consecutive clock
values, the clock advances once per enrolled file, already-present
paths are skipped rather than re-enrolled (existing entries are
untouched and no enrolled path collides with them) — so after `Load`
(with or without a walk error, and after eviction) all atimes are
pairwise distinct. -/
theorem load_assigns_distinct_atimes (items : List WalkItem) (s : Storage) (hwf : WF s) :
    (∃ new, (loadCore items s).2.entries = s.entries ++ new ∧
      (loadCore items s).2.lclock = s.lclock + new.length ∧
      new.map (fun e => e.atime) = List.range' s.lclock new.length ∧
      (∀ x ∈ new, ∀ y ∈ s.entries, x.fi.path ≠ y.fi.path)) ∧
    (loadCore items s).2.entries.Pairwise (fun a b => a.atime ≠ b.atime) ∧
    (Storage.load items s).2.entries.Pairwise (fun a b => a.atime ≠ b.atime) := by
  obtain ⟨new, h1, h2, h3, h4, h5, h6, h7, h8⟩ := loadCore_facts items s
  have hpair : (loadCore items s).2.entries.Pairwise (fun a b => a.atime ≠ b.atime) := by
    rw [h1, List.pairwise_append]
    refine ⟨hwf.2.2.1, ?_, ?_⟩
    · have hnodup : (new.map (fun e => e.atime)).Pairwise (fun a b => a ≠ b) := by
        rw [h3]
        exact List.nodup_range' s.lclock new.length
      exact (List.pairwise_map.mp hnodup).imp (fun hab => hab)
    · intro a ha b hb
      have hlt := hwf.2.2.2 a ha
      have hge : s.lclock ≤ b.atime := by
        have hmem : b.atime ∈ new.map (fun e => e.atime) :=
          List.mem_map_of_mem (fun e => e.atime) hb
        rw [h3] at hmem
        exact (List.mem_range'_1.mp hmem).1
      omega
  refine ⟨⟨new, h1, h2, h3, h4⟩, hpair, ?_⟩
  unfold Storage.load
  cases hlc : loadCore items s with
  | mk errOpt s1 =>
    rw [hlc] at hpair
    cases errOpt with
    | some c => simpa using hpair
    | none =>
      simp only
      obtain ⟨hsub, hrest⟩ := maint_shape s1.entries.length s1 le_rfl
      exact pairwise_of_subperm (fun a b hab => hab.symm) hsub hpair

/-- Witness for C10 at a concrete load of two fresh cache files over a
one-entry cache. -/
theorem load_assigns_distinct_atimes_witness :
    (∃ new, (loadCore [⟨none, true, "b.cache", 2⟩, ⟨none, true, "c.cache", 3⟩]
        (⟨"/d", 0, 1, [⟨⟨"a", 1, none, none, none⟩, 0⟩], 1⟩ : Storage)).2.entries =
        (⟨"/d", 0, 1, [⟨⟨"a", 1, none, none, none⟩, 0⟩], 1⟩ : Storage).entries ++ new ∧
      (loadCore [⟨none, true, "b.cache", 2⟩, ⟨none, true, "c.cache", 3⟩]
        (⟨"/d", 0, 1, [⟨⟨"a", 1, none, none, none⟩, 0⟩], 1⟩ : Storage)).2.lclock =
        (⟨"/d", 0, 1, [⟨⟨"a", 1, none, none, none⟩, 0⟩], 1⟩ : Storage).lclock + new.length ∧
      new.map (fun e => e.atime) =
        List.range' (⟨"/d", 0, 1, [⟨⟨"a", 1, none, none, none⟩, 0⟩], 1⟩ : Storage).lclock
          new.length ∧
      (∀ x ∈ new, ∀ y ∈ (⟨"/d", 0, 1, [⟨⟨"a", 1, none, none, none⟩, 0⟩], 1⟩ : Storage).entries,
        x.fi.path ≠ y.fi.path)) ∧
    (loadCore [⟨none, true, "b.cache", 2⟩, ⟨none, true, "c.cache", 3⟩]
      (⟨"/d", 0, 1, [⟨⟨"a", 1, none, none, none⟩, 0⟩], 1⟩ : Storage)).2.entries.Pairwise
        (fun a b => a.atime ≠ b.atime) ∧
    (Storage.load [⟨none, true, "b.cache", 2⟩, ⟨none, true, "c.cache", 3⟩]
      (⟨"/d", 0, 1, [⟨⟨"a", 1, none, none, none⟩, 0⟩], 1⟩ : Storage)).2.entries.Pairwise
        (fun a b => a.atime ≠ b.atime) :=
  load_assigns_distinct_atimes [⟨none, true, "b.cache", 2⟩, ⟨none, true, "c.cache", 3⟩]
    ⟨"/d", 0, 1, [⟨⟨"a", 1, none, none, none⟩, 0⟩], 1⟩ (by decide)

/-- `insertBase` keeps the accounting equation, never increases
`used`, and touches neither capacity nor the clock. -/
theorem insertBase_facts (s : Storage) (p : String)
    (hsum : s.used = (s.entries.map fun e => e.fi.size).sum) :
    (insertBase s p).used = ((insertBase s p).entries.map fun e => e.fi.size).sum ∧
    (insertBase s p).used ≤ s.used ∧
    (insertBase s p).capacity = s.capacity ∧
    (insertBase s p).lclock = s.lclock ∧
    (∀ e ∈ s.entries, e.fi.path ≠ p → e ∈ (insertBase s p).entries) := by
  unfold insertBase
  cases hf : findEntry s p with
  | none => exact ⟨hsum, le_rfl, by trivial, by trivial, fun e he _ => he⟩
  | some ex =>
    have hperm := find_erase_perm s.entries p ex hf
    have hsum2 : (s.entries.map fun e => e.fi.size).sum =
        ex.fi.size + ((erasePath p s.entries).map fun e => e.fi.size).sum := by
      have hp2 := hperm.map (fun e => e.fi.size)
      rw [hp2.sum_eq]
      simp
    simp only
    exact ⟨by omega, by omega, by trivial, by trivial,
      fun e he hne => mem_erasePath_of_ne s.entries p e he hne⟩

/-- C4 counterexample: a `Load` aborted by a walk error returns with
`used` above a positive capacity — the invariant does not hold at the
return of this public operation. -/
theorem capacity_invariant_counterexample :
    (Storage.load [⟨none, true, "a.cache", 5⟩, ⟨some 3, true, "b.cache", 1⟩]
        (newStorage "/c" 1)).1 = .error 3 ∧
    0 < (newStorage "/c" 1).capacity ∧
    (Storage.load [⟨none, true, "a.cache", 5⟩, ⟨some 3, true, "b.cache", 1⟩]
        (newStorage "/c" 1)).2.capacity = 1 ∧
    (Storage.load [⟨none, true, "a.cache", 5⟩, ⟨some 3, true, "b.cache", 1⟩]
        (newStorage "/c" 1)).2.used = 5 := by
  refine ⟨by rfl, by decide, by rfl, by rfl⟩

/-- C4 (amended): in a well-formed state with positive capacity and
the invariant holding on entry, every public operation other than a
`Load` aborted by a walk error returns with `used ≤ capacity`
(successful `Insert` and `Load` re-establish it through `maint`
unconditionally); `maint` stops as soon as `used ≤ capacity`, and
otherwise heap-pops a minimum-atime entry, deletes exactly it from the
cache and subtracts its size; with capacity `0` `maint` does nothing
and `Insert` never evicts, regardless of `used`. -/
theorem capacity_invariant_amended (H : HashFns) (s : Storage) (hwf : WF s) :
    (0 < s.capacity → s.used ≤ s.capacity →
      (∀ env p fi0, (s.insert H env p fi0).2.1.used ≤ s.capacity) ∧
      (∀ env fi0, (s.lookup H env fi0).2.used ≤ s.capacity) ∧
      (∀ env p, (s.delete env p).2.used ≤ s.capacity) ∧
      (∀ items s2, Storage.load items s = (.ok (), s2) → s2.used ≤ s.capacity)) ∧
    (0 < s.capacity → s.used ≤ s.capacity → s.maint = s) ∧
    (∀ e rest, 0 < s.capacity → s.capacity < s.used →
      popMinAux s.entries = some (e, rest) →
      e ∈ s.entries ∧ (∀ x ∈ rest, e.atime ≤ x.atime) ∧ s.entries.Perm (e :: rest) ∧
      s.maint = Storage.maint { s with entries := rest, used := s.used - e.fi.size }) ∧
    (s.capacity = 0 → s.maint = s ∧
      ∀ env p fi0 e, e ∈ s.entries → e.fi.path ≠ p →
        e ∈ (s.insert H env p fi0).2.1.entries) := by
  refine ⟨?_, ?_, ?_, ?_⟩
  · intro hcap hpre
    refine ⟨?_, ?_, ?_, ?_⟩
    · intro env p fi0
      rcases insert_state_cases H env p fi0 s with h | h | ⟨data, h⟩
      · rw [h]; exact hpre
      · rw [h]
        have hb := insertBase_facts s p hwf.1
        omega
      · rw [h]
        have hb := insertBase_facts s p hwf.1
        have hes : (enroll (insertBase s p) (copyWithFileInfo H p data)).used =
            ((enroll (insertBase s p) (copyWithFileInfo H p data)).entries.map
              fun e => e.fi.size).sum := by
          simp [enroll, hb.1]
        have hcap2 : (enroll (insertBase s p) (copyWithFileInfo H p data)).capacity =
            s.capacity := by
          simp [enroll, hb.2.2.1]
        have := maint_used_le (enroll (insertBase s p) (copyWithFileInfo H p data)) hes
          (by rw [hcap2]; exact hcap)
        rw [hcap2] at this
        exact this
    · intro env fi0
      rw [(lookup_shape H env fi0 s).1]
      exact hpre
    · intro env p
      unfold Storage.delete
      cases hf : findEntry s p with
      | none => exact hpre
      | some e =>
        cases env with
        | fail c => exact hpre
        | ok => simp only; omega
        | notExist => simp only; omega
    · intro items s2 hload
      unfold Storage.load at hload
      cases hlc : loadCore items s with
      | mk errOpt s1 =>
        rw [hlc] at hload
        cases errOpt with
        | some c => simp at hload
        | none =>
          simp only at hload
          obtain ⟨new, h1, h2, h3, h4, h5, h6, h7, h8⟩ := loadCore_facts items s
          rw [hlc] at h6 h8
          have hs1sum : s1.used = (s1.entries.map fun e => e.fi.size).sum := h8 hwf.1
          have hcapeq : s1.capacity = s.capacity := h6
          have hm := maint_used_le s1 hs1sum (by rw [hcapeq]; exact hcap)
          rw [hcapeq] at hm
          have h10 : s1.maint = s2 := congrArg Prod.snd hload
          rw [← h10]
          exact hm
  · intro hcap hpre
    exact maint_no_evict s (Or.inr hpre)
  · intro e rest hcap hover hm
    have hperm := popMinAux_perm s.entries e rest hm
    refine ⟨hperm.symm.mem_iff.mp (List.mem_cons_self e rest), popMinAux_min s.entries e rest hm,
      hperm, maint_step s hcap hover e rest hm⟩
  · intro hzero
    refine ⟨maint_no_evict s (Or.inl hzero), ?_⟩
    intro env p fi0 e he hne
    have hb := insertBase_facts s p hwf.1
    rcases insert_state_cases H env p fi0 s with h | h | ⟨data, h⟩
    · rw [h]; exact he
    · rw [h]; exact hb.2.2.2.2 e he hne
    · rw [h]
      have hcap2 : (enroll (insertBase s p) (copyWithFileInfo H p data)).capacity = 0 := by
        simp [enroll, hb.2.2.1, hzero]
      rw [maint_no_evict _ (Or.inl hcap2)]
      simp only [enroll]
      exact List.mem_append.mpr (Or.inl (hb.2.2.2.2 e he hne))

/-- Witness for the amended C4 at a concrete well-formed cache with
capacity 2 holding one byte. -/
theorem capacity_invariant_amended_witness :
    ((⟨"/c", 2, 1, [⟨⟨"a", 1, none, none, none⟩, 0⟩], 1⟩ : Storage).insert zeroHash
        ⟨Except.ok (), Except.ok [0, 0], Except.ok (), Except.ok (), RmOut.ok, Except.ok ()⟩
        "b" none).2.1.used ≤
      (⟨"/c", 2, 1, [⟨⟨"a", 1, none, none, none⟩, 0⟩], 1⟩ : Storage).capacity ∧
    (⟨"/c", 2, 1, [⟨⟨"a", 1, none, none, none⟩, 0⟩], 1⟩ : Storage).maint =
      ⟨"/c", 2, 1, [⟨⟨"a", 1, none, none, none⟩, 0⟩], 1⟩ :=
  ⟨((capacity_invariant_amended zeroHash ⟨"/c", 2, 1, [⟨⟨"a", 1, none, none, none⟩, 0⟩], 1⟩
      (by decide)).1 (by decide) (by decide)).1
      ⟨Except.ok (), Except.ok [0, 0], Except.ok (), Except.ok (), RmOut.ok, Except.ok ()⟩
      "b" none,
   (capacity_invariant_amended zeroHash ⟨"/c", 2, 1, [⟨⟨"a", 1, none, none, none⟩, 0⟩], 1⟩
      (by decide)).2.1 (by decide) (by decide)⟩

end Cacher

/-! ### Properties of the mirror engine -/

namespace Mirror

/-- C1: `downloadItems` hands the collected item results to the
pipeline with `allowMissing = false` (the literal arguments at the
call site are `false, false`), so a 404 for a listed item makes the
whole update fail with `status 404 for <path>` instead of being
logged and skipped; the same consumer run with `allowMissing = true`
would skip it. -/
theorem downloadItems_404_fails_update :
    (∀ results, downloadItems results = downloadFiles false false results) ∧
    downloadItems [⟨404, "pool/a.deb", none, none⟩] =
      .error (.statusErr 404 "pool/a.deb") ∧
    downloadItems [⟨200, "pool/b.deb", some ⟨"pool/b.deb", 1, none, none, none⟩, none⟩,
        ⟨404, "pool/a.deb", none, none⟩] =
      .error (.statusErr 404 "pool/a.deb") ∧
    recvResult true false [⟨404, "pool/a.deb", none, none⟩] = .ok [] :=
  ⟨fun _ => rfl, rfl, rfl, rfl⟩

/-- C2: `downloadIndices` hands the collected index results to the
pipeline with `allowMissing = true` (the literal argument at the call
site), so a 404 for an index is logged and skipped instead of failing
the suite; any other non-200 status (403 here) still fails, and the
detected by-hash flag is forwarded unchanged. -/
theorem downloadIndices_skips_404 :
    (∀ byhash results, downloadIndices byhash results = downloadFiles true byhash results) ∧
    downloadIndices true [⟨404, "dists/s/main/binary-amd64/Packages.gz", none, none⟩] =
      .ok [] ∧
    downloadIndices false [⟨404, "dists/s/main/binary-amd64/Packages.gz", none, none⟩] =
      .ok [] ∧
    downloadIndices true [⟨403, "dists/s/Release", none, none⟩] =
      .error (.statusErr 403 "dists/s/Release") :=
  ⟨fun _ _ => rfl, rfl, rfl, rfl⟩

theorem runSuites_facts : ∀ (i : Nat) (l : List Bool),
    (runSuites i l).1 = l.all id ∧ ∀ ev ∈ (runSuites i l).2, isPubEv ev = false ∧
      ev ≠ MEv.save ∧ ev ≠ MEv.dlItems := by
  intro i l
  induction l generalizing i with
  | nil => exact ⟨rfl, by simp [runSuites]⟩
  | cons b rest ih =>
    by_cases hb : b
    · subst hb
      obtain ⟨ih1, ih2⟩ := ih (i + 1)
      refine ⟨by simp [runSuites, ih1], ?_⟩
      intro ev hev
      simp only [runSuites, if_pos rfl] at hev
      rcases List.mem_cons.mp hev with rfl | hm
      · exact ⟨rfl, by simp, by simp⟩
      · exact ih2 ev hm
    · have hb2 : b = false := by simpa using hb
      subst hb2
      refine ⟨by simp [runSuites], ?_⟩
      intro ev hev
      simp only [runSuites, Bool.false_eq_true, if_neg] at hev
      simp at hev
      subst hev
      exact ⟨rfl, by simp, by simp⟩

theorem replaceLink_result (e : UpdateEnv) :
    (replaceLink e).1 = (e.symlinkOk && e.sync1Ok && e.renameOk && e.sync2Ok) := by
  unfold replaceLink
  by_cases h1 : e.symlinkOk <;> by_cases h2 : e.sync1Ok <;> by_cases h3 : e.renameOk <;>
    simp [h1, h2, h3]

theorem replaceLink_trace (e : UpdateEnv) :
    (replaceLink e).2 =
      [MEv.rmTmpLink, MEv.symlink, MEv.syncDir1, MEv.renameLink, MEv.syncDir2].take
        (if e.symlinkOk then (if e.sync1Ok then (if e.renameOk then 5 else 4) else 3) else 2) := by
  unfold replaceLink
  by_cases h1 : e.symlinkOk <;> by_cases h2 : e.sync1Ok <;> by_cases h3 : e.renameOk <;>
    simp [h1, h2, h3]

/-- C3: `Update` runs the suite updates, the item download phase and
`storage.Save` in order, and publishes — `replaceLink` — only when
every one of them succeeded; within publication the symlink creation,
the first directory fsync, the rename and the second fsync happen in
this order, each step gated on the success of the one before; no
publication step precedes the metadata save. -/
theorem update_publishes_after_save (e : UpdateEnv) :
    ((update e).1 = (e.suiteRes.all id && e.itemsOk && e.saveOk &&
      e.symlinkOk && e.sync1Ok && e.renameOk && e.sync2Ok)) ∧
    ((update e).2 = (runSuites 0 e.suiteRes).2 ++
      (if (runSuites 0 e.suiteRes).1 then
        MEv.dlItems :: (if e.itemsOk then MEv.save ::
          (if e.saveOk then (replaceLink e).2 else []) else []) else [])) ∧
    (∀ ev ∈ (runSuites 0 e.suiteRes).2, isPubEv ev = false) ∧
    ((∃ ev ∈ (update e).2, isPubEv ev = true) →
      e.suiteRes.all id = true ∧ e.itemsOk = true ∧ e.saveOk = true ∧
        MEv.save ∈ (update e).2) ∧
    ((replaceLink e).2 =
      [MEv.rmTmpLink, MEv.symlink, MEv.syncDir1, MEv.renameLink, MEv.syncDir2].take
        (if e.symlinkOk then (if e.sync1Ok then (if e.renameOk then 5 else 4) else 3)
          else 2)) ∧
    (MEv.renameLink ∈ (replaceLink e).2 ↔ (e.symlinkOk ∧ e.sync1Ok)) := by
  obtain ⟨hall, hevs⟩ := runSuites_facts 0 e.suiteRes
  have hdecomp : (update e).2 = (runSuites 0 e.suiteRes).2 ++
      (if (runSuites 0 e.suiteRes).1 then
        MEv.dlItems :: (if e.itemsOk then MEv.save ::
          (if e.saveOk then (replaceLink e).2 else []) else []) else []) := by
    unfold update
    by_cases hsu : (runSuites 0 e.suiteRes).1 <;>
      by_cases hit : e.itemsOk <;> by_cases hsv : e.saveOk <;>
      simp [hsu, hit, hsv]
  refine ⟨?_, hdecomp, fun ev hev => (hevs ev hev).1, ?_, replaceLink_trace e, ?_⟩
  · unfold update
    by_cases hsu : (runSuites 0 e.suiteRes).1
    · have hsall : e.suiteRes.all id = true := by rw [← hall]; exact hsu
      by_cases hit : e.itemsOk <;> by_cases hsv : e.saveOk <;>
        simp [hsu, hit, hsv, hsall, replaceLink_result]
    · have hsall : e.suiteRes.all id = false := by rw [← hall]; simpa using hsu
      simp [hsu, hsall]
  · intro ⟨ev, hev, hpub⟩
    rw [hdecomp] at hev
    by_cases hsu : (runSuites 0 e.suiteRes).1
    · have hsall : e.suiteRes.all id = true := by rw [← hall]; exact hsu
      by_cases hit : e.itemsOk
      · by_cases hsv : e.saveOk
        · refine ⟨hsall, hit, hsv, ?_⟩
          rw [hdecomp]
          simp [hsu, hit, hsv]
        · exfalso
          rw [if_pos hsu, if_pos hit, if_neg hsv] at hev
          rcases List.mem_append.mp hev with hm | hm
          · rw [(hevs ev hm).1] at hpub; cases hpub
          · rcases List.mem_cons.mp hm with rfl | hm2
            · cases hpub
            · simp at hm2
              subst hm2
              cases hpub
      · exfalso
        rw [if_pos hsu, if_neg hit] at hev
        rcases List.mem_append.mp hev with hm | hm
        · rw [(hevs ev hm).1] at hpub; cases hpub
        · simp at hm
          subst hm
          cases hpub
    · exfalso
      rw [if_neg hsu] at hev
      rw [List.append_nil] at hev
      rw [(hevs ev hev).1] at hpub
      cases hpub
  · unfold replaceLink
    by_cases h1 : e.symlinkOk <;> by_cases h2 : e.sync1Ok <;> by_cases h3 : e.renameOk <;>
      simp [h1, h2, h3]

/-- Witness for C3 at a one-suite fully successful update. -/
theorem update_publishes_after_save_witness :
    [true].all id = true ∧ (⟨[true], true, true, true, true, true, true⟩ : UpdateEnv).itemsOk = true ∧
    (⟨[true], true, true, true, true, true, true⟩ : UpdateEnv).saveOk = true ∧
    MEv.save ∈ (update ⟨[true], true, true, true, true, true, true⟩).2 :=
  (update_publishes_after_save ⟨[true], true, true, true, true, true, true⟩).2.2.2.1
    ⟨MEv.symlink, by decide, by decide⟩

theorem dlLoop_chain (e : DlEnv) (p : String) (fi : Option FileInfo) :
    ∀ n ts r i ls, (httpRetries + 1 - r) + ts.length ≤ n →
    chainOk p ts r (dlLoop e p fi ts r i ls).2 = true := by
  intro n
  induction n using Nat.strong_induction_on with
  | _ n ih =>
    intro ts r i ls hn
    rw [dlLoop]
    split
    · simp [chainOk]
    · cases hnet : e.net i with
      | transportErr =>
        simp only [hnet]
        split
        · next h =>
          simp only [chainOk]
          simp [h]
          exact ih ((httpRetries + 1 - (r + 1)) + ts.length)
            (by have hr : r < httpRetries := h; omega) ts (r + 1) (i + 1) ls le_rfl
        · next h =>
          simp [chainOk, h]
      | http st sto =>
        simp only [hnet]
        split
        · next h =>
          simp only [chainOk]
          simp [h.1, h.2]
          exact ih ((httpRetries + 1 - (r + 1)) + ts.length)
            (by have hr : r < httpRetries := h.2; omega) ts (r + 1) (i + 1) st le_rfl
        · next h =>
          by_cases hst : st = 200
          · subst hst
            rw [if_neg (by omega)]
            cases sto with
            | ok => simp [chainOk, h]
            | err c => simp [chainOk, h]
            | invalidData =>
              by_cases hlen : ts.length > 1
              · rw [dif_pos hlen]
                simp only [chainOk]
                simp [h, hlen]
                have htl : ts.tail.length = ts.length - 1 := by
                  cases ts <;> simp
                exact ih ((httpRetries + 1 - r) + ts.tail.length)
                  (by omega) ts.tail r (i + 1) 200 le_rfl
              · rw [dif_neg hlen]
                simp [chainOk, h, hlen]
          · rw [if_pos hst]
            simp [chainOk, h, hst]

theorem chainOk_mem (p : String) : ∀ (tr : List Attempt) (ts : List String) (r : Nat),
    ts ≠ [] → r ≤ httpRetries → chainOk p ts r tr = true →
    ∀ a ∈ tr, a.target ∈ ts ∧ a.retries ≤ httpRetries := by
  intro tr
  induction tr with
  | nil => intro ts r _ _ _ a ha; simp at ha
  | cons a0 rest ih =>
    intro ts r hts hr hchain a ha
    have hhead : ts.headD p ∈ ts := by
      cases ts with
      | nil => exact absurd rfl hts
      | cons x xs => simp
    cases haout : a0.out with
    | transportErr =>
      simp only [chainOk, haout, Bool.and_eq_true, beq_iff_eq] at hchain
      obtain ⟨⟨⟨h1, h2⟩, h3⟩, h4⟩ := hchain
      rcases List.mem_cons.mp ha with rfl | hmem
      · exact ⟨h1 ▸ hhead, h2 ▸ hr⟩
      · by_cases hlt : r < httpRetries
        · rw [if_pos hlt] at h4
          exact ih ts (r + 1) hts (by omega) h4 a hmem
        · rw [if_neg hlt] at h4
          cases rest with
          | nil => simp at hmem
          | cons b bs => simp at h4
    | http st sto =>
      simp only [chainOk, haout, Bool.and_eq_true, beq_iff_eq] at hchain
      obtain ⟨⟨⟨h1, h2⟩, h3⟩, h4⟩ := hchain
      rcases List.mem_cons.mp ha with rfl | hmem
      · exact ⟨h1 ▸ hhead, h2 ▸ hr⟩
      · by_cases hc : st ≥ 500 ∧ r < httpRetries
        · rw [if_pos hc] at h4
          exact ih ts (r + 1) hts (by omega) h4 a hmem
        · rw [if_neg hc] at h4
          by_cases h200 : st ≠ 200
          · rw [if_pos h200] at h4
            cases rest with
            | nil => simp at hmem
            | cons b bs => simp at h4
          · rw [if_neg h200] at h4
            cases sto with
            | ok =>
              cases rest with
              | nil => simp at hmem
              | cons b bs => simp at h4
            | err c =>
              cases rest with
              | nil => simp at hmem
              | cons b bs => simp at h4
            | invalidData =>
              by_cases hlen : ts.length > 1
              · rw [if_pos hlen] at h4
                have htts : ts.tail ≠ [] := by
                  cases ts with
                  | nil => simp at hlen
                  | cons x xs =>
                    cases xs with
                    | nil => simp at hlen
                    | cons y ys => simp
                obtain ⟨hm1, hm2⟩ := ih ts.tail r htts hr h4 a hmem
                exact ⟨List.mem_of_mem_tail hm1, hm2⟩
              · rw [if_neg hlen] at h4
                cases rest with
                | nil => simp at hmem
                | cons b bs => simp at h4

/-- C5: with by-hash fallback and a FileInfo, the alternate target
list is `[path, sha256Path, sha1Path, md5Path]`, and the whole retry
trace obeys the discipline checked by `chainOk`: every attempt
requests the head of the remaining target list with the current retry
counter, sleeps `2^(retries-1)` exactly when the counter is positive,
the counter is bumped only on transport errors and 5xx (and only below
the 5-retry cap), and a 200 whose store reports `ErrInvalidData` with
alternates remaining drops to the next alternate with the counter
unchanged; in particular every requested target is one of the four
by-hash alternates and the counter never exceeds 5. -/
theorem download_byhash_fallback (e : DlEnv) (p : String) (f : FileInfo) :
    dlTargets p (some f) true = [p, f.sha256Path, f.sha1Path, f.md5SumPath] ∧
    chainOk p [p, f.sha256Path, f.sha1Path, f.md5SumPath] 0
      (download e p (some f) true).2 = true ∧
    ∀ a ∈ (download e p (some f) true).2,
      a.target ∈ [p, f.sha256Path, f.sha1Path, f.md5SumPath] ∧
      a.retries ≤ httpRetries := by
  have hchain : chainOk p [p, f.sha256Path, f.sha1Path, f.md5SumPath] 0
      (download e p (some f) true).2 = true :=
    dlLoop_chain e p (some f)
      ((httpRetries + 1 - 0) + [p, f.sha256Path, f.sha1Path, f.md5SumPath].length)
      [p, f.sha256Path, f.sha1Path, f.md5SumPath] 0 0 0 le_rfl
  refine ⟨rfl, hchain, ?_⟩
  intro a ha
  exact chainOk_mem p _ _ 0 (by simp) (by omega) hchain a ha

/-- Witness for C5: a concrete run whose first 200 stores invalid data
and then succeeds on the sha256 alternate. -/
theorem download_byhash_fallback_witness :
    chainOk "pool/y"
      ["pool/y", (⟨"pool/y", 3, some 1, some 2, some 3⟩ : FileInfo).sha256Path,
        (⟨"pool/y", 3, some 1, some 2, some 3⟩ : FileInfo).sha1Path,
        (⟨"pool/y", 3, some 1, some 2, some 3⟩ : FileInfo).md5SumPath] 0
      (download ⟨fun _ => false,
          fun i => if i == 0 then NetOut.http 200 StoreOut.invalidData
            else NetOut.http 200 StoreOut.ok⟩
        "pool/y" (some ⟨"pool/y", 3, some 1, some 2, some 3⟩) true).2 = true ∧
    ((⟨"pool/y", 0, none, NetOut.http 200 StoreOut.invalidData⟩ : Attempt).target ∈
        ["pool/y", (⟨"pool/y", 3, some 1, some 2, some 3⟩ : FileInfo).sha256Path,
          (⟨"pool/y", 3, some 1, some 2, some 3⟩ : FileInfo).sha1Path,
          (⟨"pool/y", 3, some 1, some 2, some 3⟩ : FileInfo).md5SumPath] ∧
      (⟨"pool/y", 0, none, NetOut.http 200 StoreOut.invalidData⟩ : Attempt).retries ≤
        httpRetries) :=
  ⟨(download_byhash_fallback ⟨fun _ => false,
      fun i => if i == 0 then NetOut.http 200 StoreOut.invalidData
        else NetOut.http 200 StoreOut.ok⟩
      "pool/y" ⟨"pool/y", 3, some 1, some 2, some 3⟩).2.1,
   (download_byhash_fallback ⟨fun _ => false,
      fun i => if i == 0 then NetOut.http 200 StoreOut.invalidData
        else NetOut.http 200 StoreOut.ok⟩
      "pool/y" ⟨"pool/y", 3, some 1, some 2, some 3⟩).2.2
      ⟨"pool/y", 0, none, NetOut.http 200 StoreOut.invalidData⟩
      (by simp [download, dlLoop, dlTargets])⟩

end Mirror

end Aptutil
